import Mathlib

/-!
# A verification development for the C Prolog engine

Shallow embedding of the logic-programming core found in
`code_agent/demo` (the `term.c` / `substitution.c` / `unification.c` /
`inference.c` / `parser.c` / `knowledge_base.c` iteration, which is the
most complete one).  C strings become `String`/`List Char`, the
substitution array becomes a `List (String × Term)` kept in array order
(index 0 first), and every C function that can recurse unboundedly
(dereferencing, unification, substitution application, resolution,
parsing) takes an explicit fuel argument and returns `none` exactly when
the C function would still be running after that many nested calls.
-/

namespace PrologC

/-- Terms, mirroring `struct Term` from `term.h`: an atom, a variable, or
a compound term with a functor name and an ordered argument list
(`arity` is the list length). -/
inductive Term where
  | atom (name : String)
  | var (name : String)
  | compound (name : String) (args : List Term)

/-- A substitution, mirroring `struct Substitution` from
`substitution.h`: the list is kept in array order, so `add_sub_pair`
appends at the end and scans start from the head (index 0). -/
abbrev Sub := List (String × Term)

/-- The linear scan `for (i = 0; i < sub->count; ++i)` used by both
`dereference` (unification.c) and `apply_substitution`
(substitution.c): first entry whose `var_name` matches wins. -/
def lookupSub (sub : Sub) (v : String) : Option Term :=
  match sub with
  | [] => none
  | (w, t) :: rest => if w = v then some t else lookupSub rest v

/-- `add_sub_pair` from substitution.c: appends the new pair at the end
of the array, never overwriting an existing entry. -/
def add_sub_pair (sub : Sub) (v : String) (t : Term) : Sub :=
  sub ++ [(v, t)]

/-- `mark_substitution` from substitution.c: the current entry count. -/
def mark_substitution (sub : Sub) : Nat := sub.length

/-- `restore_substitution` from substitution.c: frees every entry at
index ≥ mark and truncates the array to `mark` entries. -/
def restore_substitution (sub : Sub) (mark : Nat) : Sub := sub.take mark

/-- `dereference` from unification.c: follow a variable's binding chain
through the substitution until a non-variable or an unbound variable is
reached.  The chain can loop in C (e.g. `X ↦ Y, Y ↦ X`), hence the
fuel; non-variables and unbound variables return without spending
fuel. -/
def dereference (sub : Sub) : Nat → Term → Option Term
  | _, Term.atom n => some (Term.atom n)
  | _, Term.compound n args => some (Term.compound n args)
  | fuel, Term.var n =>
    match lookupSub sub n with
    | none => some (Term.var n)
    | some t =>
      match fuel with
      | 0 => none
      | f + 1 => dereference sub f t

mutual

/-- `occurs_check` from unification.c: purely syntactic — it compares
`var_name` against every `VARIABLE` node of `term` but never
dereferences through the substitution. -/
def occurs_check (v : String) : Term → Bool
  | Term.var n => v = n
  | Term.atom _ => false
  | Term.compound _ args => occursAny v args

/-- The argument loop of `occurs_check` over a compound's children. -/
def occursAny (v : String) : List Term → Bool
  | [] => false
  | t :: ts => occurs_check v t || occursAny v ts

end

mutual

/-- `unify` from unification.c.  Dereferences both sides, then: same
variable on both sides succeeds with no binding; a variable against any
other term binds it unless the (syntactic) occurs check fires; atoms
compare by name; compounds compare functor and arity and unify the
arguments left to right, keeping earlier bindings on a later failure.
Returns the C function's boolean together with the mutated
substitution. -/
def unify : Nat → Term → Term → Sub → Option (Bool × Sub)
  | 0, _, _, _ => none
  | fuel + 1, t1, t2, sub =>
    match dereference sub fuel t1 with
    | none => none
    | some t1' =>
      match dereference sub fuel t2 with
      | none => none
      | some t2' =>
        match t1' with
        | Term.var n1 =>
          if (match t2' with | Term.var n2 => n1 = n2 | _ => false : Bool) then
            some (true, sub)
          else if occurs_check n1 t2' then some (false, sub)
          else some (true, add_sub_pair sub n1 t2')
        | _ =>
          match t2' with
          | Term.var n2 =>
            if occurs_check n2 t1' then some (false, sub)
            else some (true, add_sub_pair sub n2 t1')
          | _ =>
            match t1', t2' with
            | Term.atom n1, Term.atom n2 => some (decide (n1 = n2), sub)
            | Term.compound n1 a1, Term.compound n2 a2 =>
              if n1 = n2 ∧ a1.length = a2.length then
                unifyArgs fuel a1 a2 sub
              else some (false, sub)
            | _, _ => some (false, sub)

/-- The `for` loop of `unify` over compound arguments: unify pairwise,
short-circuit on the first failing argument, thread the substitution
(bindings made by earlier arguments stay visible to later ones). -/
def unifyArgs : Nat → List Term → List Term → Sub → Option (Bool × Sub)
  | 0, _, _, _ => none
  | _ + 1, [], [], sub => some (true, sub)
  | fuel + 1, x :: xs, y :: ys, sub =>
    match unify fuel x y sub with
    | none => none
    | some (b, sub') =>
      if b then unifyArgs fuel xs ys sub' else some (false, sub')
  | _ + 1, _, _, sub => some (false, sub)

end

/-- `apply_substitution` from substitution.c: a bound variable is
replaced by the (recursively substituted) term it is bound to, a
compound is rebuilt with substituted arguments, atoms and unbound
variables are copied.  The recursion through bindings can loop in C,
hence the fuel. -/
def apply_substitution : Nat → Term → Sub → Option Term
  | 0, _, _ => none
  | fuel + 1, t, sub =>
    match t with
    | Term.var n =>
      match lookupSub sub n with
      | some t' => apply_substitution fuel t' sub
      | none => some (Term.var n)
    | Term.atom n => some (Term.atom n)
    | Term.compound n args =>
      match args.mapM (fun a => apply_substitution fuel a sub) with
      | some args' => some (Term.compound n args')
      | none => none

mutual

/-- `rename_variables` from term.c: deep-copies a term, replacing every
`VARIABLE` node by `_G<counter>` and incrementing the counter at every
variable occurrence (the original name is ignored, so two occurrences
of the same variable receive different fresh names).  Returns the copy
and the updated counter. -/
def rename_variables : Term → Nat → Term × Nat
  | Term.var _, c => (Term.var ("_G" ++ toString c), c + 1)
  | Term.atom n, c => (Term.atom n, c)
  | Term.compound n args, c =>
    match renameArgsList args c with
    | (args', c') => (Term.compound n args', c')

/-- The argument loop of `rename_variables`, threading the counter left
to right. -/
def renameArgsList : List Term → Nat → List Term × Nat
  | [], c => ([], c)
  | t :: ts, c =>
    match rename_variables t c with
    | (t', c') =>
      match renameArgsList ts c' with
      | (ts', c'') => (t' :: ts', c'')

end

/-- A clause, mirroring `struct Clause` from clause.h: a head term and
an ordered list of body goal terms (empty body = fact). -/
structure Clause where
  head : Term
  body : List Term

/-- The knowledge base, mirroring `struct KnowledgeBase` from
knowledge_base.h: an ordered array of clauses, kept here in array
order. -/
abbrev KB := List Clause

/-- `add_clause` from knowledge_base.c: appends the clause at the end
of the array. -/
def add_clause (kb : KB) (c : Clause) : KB := kb ++ [c]

/-- The `_G`-prefix test used when `resolve` prints a solution
(inference.c): a binding is shown only when its variable name does not
start with `'_'` followed by `'G'`. -/
def isRenamedName (s : String) : Bool :=
  match s.toList with
  | '_' :: 'G' :: _ => true
  | _ => false

/-- One solution as `resolve` prints it: the substitution entries, in
trail order, whose variable name is not `_G`-prefixed, each paired with
`apply_substitution` of its bound term. -/
abbrev Solution := List (String × Term)

/-- The solution-printing loop of `resolve`'s base case (inference.c):
walk the substitution in order, skip `_G`-renamed variables, apply the
substitution to each remaining bound term. -/
def mkSolution (fuel : Nat) (sub : Sub) : List (String × Term) → Option Solution
  | [] => some []
  | (n, t) :: rest =>
    if isRenamedName n then mkSolution fuel sub rest
    else
      match apply_substitution fuel t sub with
      | none => none
      | some t' =>
        match mkSolution fuel sub rest with
        | none => none
        | some rest' => some ((n, t') :: rest')

/-- `rename_variables` applied to a clause body, threading the shared
counter, as the fresh-clause construction in `resolve` does
(inference.c). -/
def renameBody : List Term → Nat → List Term × Nat
  | [], c => ([], c)
  | t :: ts, c =>
    match rename_variables t c with
    | (t', c') =>
      match renameBody ts c' with
      | (ts', c'') => (t' :: ts', c'')

mutual

/-- `resolve` from inference.c: depth-first SLD search.  With no goals
left, the current substitution (filtered and dereferenced) is one
solution.  Otherwise the first goal is tried against every clause of
the knowledge base in insertion order via `resolveClauses`.  Returns
the emitted solutions in order, together with the final substitution
and variable counter; `none` models a C run still descending after
`fuel` nested calls. -/
def resolve : Nat → KB → List Term → Sub → Nat → Option (List Solution × Sub × Nat)
  | 0, _, _, _, _ => none
  | fuel + 1, kb, goals, sub, c =>
    match goals with
    | [] =>
      match mkSolution fuel sub sub with
      | none => none
      | some sol => some ([sol], sub, c)
    | g :: rest => resolveClauses fuel kb kb g rest sub c

/-- The clause loop of `resolve` (inference.c): for each clause, build a
freshly renamed copy, mark the substitution, attempt unification with
the current goal; on success push the fresh body in front of the
remaining goals (both passed through `apply_substitution`) and recurse;
in every case restore the substitution to the mark before moving to the
next clause. -/
def resolveClauses : Nat → KB → List Clause → Term → List Term → Sub → Nat →
    Option (List Solution × Sub × Nat)
  | 0, _, _, _, _, _, _ => none
  | _ + 1, _, [], _, _, sub, c => some ([], sub, c)
  | fuel + 1, kb, cl :: cls, g, rest, sub, c =>
    match rename_variables cl.head c with
    | (freshHead, c1) =>
      match renameBody cl.body c1 with
      | (freshBody, c2) =>
        match unify fuel g freshHead sub with
        | none => none
        | some (ok, sub1) =>
          if ok then
            match (freshBody ++ rest).mapM (fun t => apply_substitution fuel t sub1) with
            | none => none
            | some nextGoals =>
              match resolve fuel kb nextGoals sub1 c2 with
              | none => none
              | some (sols, sub2, c3) =>
                match resolveClauses fuel kb cls g rest
                    (restore_substitution sub2 (mark_substitution sub)) c3 with
                | none => none
                | some (sols', sub3, c4) => some (sols ++ sols', sub3, c4)
          else
            resolveClauses fuel kb cls g rest
              (restore_substitution sub1 (mark_substitution sub)) c2

end

/-- `resolve_query` from inference.c: start from a fresh empty
substitution and a variable counter reset to `0`, with the query term
as the single initial goal, and collect the solutions `resolve`
emits. -/
def resolve_query (fuel : Nat) (kb : KB) (query : Term) : Option (List Solution) :=
  match resolve fuel kb [query] [] 0 with
  | none => none
  | some (sols, _, _) => some sols

/-- The interactive loop of the driver, which runs each entered query
against the unmodified knowledge base: `resolve_query` touches neither
the knowledge base nor any state surviving between queries (its
substitution is created fresh and freed, its variable counter is a
local reset to 0). -/
def run_session (fuel : Nat) (kb : KB) (queries : List Term) : List (Option (List Solution)) :=
  queries.map (resolve_query fuel kb)

/-- `is_uppercase` from parser.c: only the ASCII range `'A'..'Z'`; in
particular an underscore is not uppercase. -/
def is_uppercase (c : Char) : Bool :=
  'A' ≤ c && c ≤ 'Z'

/-- `isalpha` in the C locale, as used by `parse_name`. -/
def isAlphaC (c : Char) : Bool :=
  ('A' ≤ c && c ≤ 'Z') || ('a' ≤ c && c ≤ 'z')

/-- `isalnum` in the C locale, as used by `parse_name`. -/
def isAlnumC (c : Char) : Bool :=
  isAlphaC c || ('0' ≤ c && c ≤ '9')

/-- The character class accepted by `parse_name`'s loop
`(input == start && isalpha(*input)) || isalnum(*input) || *input == '_'`:
since `isalpha` implies `isalnum`, every position accepts exactly
alphanumerics and underscore. -/
def isNameChar (c : Char) : Bool :=
  isAlnumC c || c == '_'

/-- `skip_whitespace` from parser.c: drop leading spaces, tabs,
newlines and carriage returns. -/
def skip_whitespace : List Char → List Char
  | [] => []
  | c :: cs =>
    if c == ' ' || c == '\t' || c == '\n' || c == '\r' then skip_whitespace cs
    else c :: cs

/-- `parse_name` from parser.c: take the longest nonempty prefix of
name characters; fail on an empty prefix. -/
def parse_name (l : List Char) : Option (List Char × List Char) :=
  match l.takeWhile isNameChar with
  | [] => none
  | n => some (n, l.drop n.length)

mutual

/-- `parse_term` from parser.c: skip whitespace, read a name, skip
whitespace; a following `'('` starts a compound term (with a special
case for an empty argument list), otherwise the name alone is the term
— a Variable when `is_uppercase` accepts its first character, an Atom
otherwise. -/
def parse_term : Nat → List Char → Option (Term × List Char)
  | 0, _ => none
  | fuel + 1, l =>
    match parse_name (skip_whitespace l) with
    | none => none
    | some (n, r) =>
      match skip_whitespace r with
      | '(' :: r2 =>
        match skip_whitespace r2 with
        | ')' :: r3 => some (Term.compound (String.mk n) [], r3)
        | r3 => parseArgs fuel (String.mk n) [] r3
      | r1 =>
        if is_uppercase (n.headD ' ') then some (Term.var (String.mk n), r1)
        else some (Term.atom (String.mk n), r1)

/-- The argument loop of `parse_term` (parser.c): parse one argument,
then expect `')'` (finish the compound) or `','` (continue); anything
else is a parse error. -/
def parseArgs : Nat → String → List Term → List Char → Option (Term × List Char)
  | 0, _, _, _ => none
  | fuel + 1, name, acc, l =>
    match parse_term fuel l with
    | none => none
    | some (a, r) =>
      match skip_whitespace r with
      | ')' :: r2 => some (Term.compound name (acc ++ [a]), r2)
      | ',' :: r2 => parseArgs fuel name (acc ++ [a]) (skip_whitespace r2)
      | _ => none

end

mutual

/-- `parse_clause` from parser.c: parse the head term; a following
`":-"` starts a rule body, a `'.'` ends a fact, anything else is a
parse error.  On any error everything built so far is discarded and
`none` is returned — no partial clause escapes. -/
def parse_clause : Nat → List Char → Option (Clause × List Char)
  | 0, _ => none
  | fuel + 1, l =>
    match parse_term fuel (skip_whitespace l) with
    | none => none
    | some (head, r) =>
      match skip_whitespace r with
      | ':' :: '-' :: r2 => parseBody fuel head [] r2
      | '.' :: r2 => some (⟨head, []⟩, r2)
      | _ => none

/-- The body-goal loop of `parse_clause` (parser.c): parse one goal,
then expect `'.'` (finish the clause) or `','` (continue); anything
else is a parse error. -/
def parseBody : Nat → Term → List Term → List Char → Option (Clause × List Char)
  | 0, _, _, _ => none
  | fuel + 1, head, acc, l =>
    match parse_term fuel (skip_whitespace l) with
    | none => none
    | some (g, r) =>
      match skip_whitespace r with
      | '.' :: r2 => some (⟨head, acc ++ [g]⟩, r2)
      | ',' :: r2 => parseBody fuel head (acc ++ [g]) r2
      | _ => none

end

/-- Modelled from the spec: `load_clause(text)` (spec §6) — the driver
glue between `parse_clause` and `add_clause` is not among the engine
sources, so it is modelled from the spec's words: parse one textual
clause and, on success, append it to the knowledge base; on failure,
leave the knowledge base unchanged and report the error.  `true` means
the clause was installed. -/
def load_clause (fuel : Nat) (kb : KB) (text : List Char) : KB × Bool :=
  match parse_clause fuel text with
  | some (c, _) => (add_clause kb c, true)
  | none => (kb, false)

/-! ## Concrete data for the spec's end-to-end scenarios -/

/-- The fact `parent(john, jim).` from the default knowledge base. -/
def factParentJohnJim : Clause :=
  ⟨Term.compound "parent" [Term.atom "john", Term.atom "jim"], []⟩

/-- The fact `parent(john, jane).` from the default knowledge base. -/
def factParentJohnJane : Clause :=
  ⟨Term.compound "parent" [Term.atom "john", Term.atom "jane"], []⟩

/-- The fact `parent(mary, john).` from the default knowledge base. -/
def factParentMaryJohn : Clause :=
  ⟨Term.compound "parent" [Term.atom "mary", Term.atom "john"], []⟩

/-- The rule `grandparent(X,Y) :- parent(X,Z), parent(Z,Y).`. -/
def ruleGrandparent : Clause :=
  ⟨Term.compound "grandparent" [Term.var "X", Term.var "Y"],
   [Term.compound "parent" [Term.var "X", Term.var "Z"],
    Term.compound "parent" [Term.var "Z", Term.var "Y"]]⟩

/-- The knowledge base holding exactly the three parent facts, in
insertion order. -/
def kbFacts : KB := [factParentJohnJim, factParentJohnJane, factParentMaryJohn]

/-- The knowledge base holding the three parent facts and the
grandparent rule. -/
def kbDemo : KB := [factParentJohnJim, factParentJohnJane, factParentMaryJohn, ruleGrandparent]

/-- The query term `parent(john, X)`. -/
def queryParentJohnX : Term := Term.compound "parent" [Term.atom "john", Term.var "X"]

/-- The query term `grandparent(mary, X)`. -/
def queryGrandparentMaryX : Term :=
  Term.compound "grandparent" [Term.atom "mary", Term.var "X"]

/-! ## Shared lemmas about the engine -/

/-- `unify` (and its argument loop) only ever appends to the
substitution: whatever boolean it returns, the final substitution is
the initial one plus a suffix of new bindings. -/
theorem unifyAppendsAux : ∀ fuel : Nat,
    (∀ t1 t2 sub b sub', unify fuel t1 t2 sub = some (b, sub') → ∃ e, sub' = sub ++ e)
    ∧ (∀ l1 l2 sub b sub', unifyArgs fuel l1 l2 sub = some (b, sub') → ∃ e, sub' = sub ++ e) := by
  intro fuel
  induction fuel with
  | zero =>
    refine ⟨?_, ?_⟩ <;> intro a b sub bb sub' h <;> simp [unify, unifyArgs] at h
  | succ f ih =>
    refine ⟨?_, ?_⟩
    · intro t1 t2 sub b sub' h
      simp only [unify] at h
      repeat' split at h
      all_goals first
        | exact Option.noConfusion h
        | exact ih.2 _ _ _ _ _ h
        | (injection h with h1; injection h1 with h2 h3; subst h3;
           first
             | exact ⟨[], (List.append_nil sub).symm⟩
             | exact ⟨_, rfl⟩)
    · intro l1 l2 sub b sub' h
      match l1, l2 with
      | [], [] =>
        simp only [unifyArgs] at h
        injection h with h1; injection h1 with h2 h3; subst h3
        exact ⟨[], (List.append_nil sub).symm⟩
      | x :: xs, y :: ys =>
        simp only [unifyArgs] at h
        split at h
        · exact Option.noConfusion h
        · rename_i b1 sub1 heq
          split at h
          · obtain ⟨e1, rfl⟩ := ih.1 _ _ _ _ _ heq
            obtain ⟨e2, rfl⟩ := ih.2 _ _ _ _ _ h
            exact ⟨e1 ++ e2, by rw [List.append_assoc]⟩
          · injection h with h1; injection h1 with h2 h3; subst h3
            exact ih.1 _ _ _ _ _ heq
      | [], y :: ys =>
        simp only [unifyArgs] at h
        injection h with h1; injection h1 with h2 h3; subst h3
        exact ⟨[], (List.append_nil sub).symm⟩
      | x :: xs, [] =>
        simp only [unifyArgs] at h
        injection h with h1; injection h1 with h2 h3; subst h3
        exact ⟨[], (List.append_nil sub).symm⟩

/-- `resolve` (and its clause loop) hands the substitution back exactly
as it received it: the mark taken before each clause attempt is
restored after the attempt, so no binding survives the call. -/
theorem resolveRestoresAux : ∀ fuel : Nat,
    (∀ kb goals sub c sols sub' c',
        resolve fuel kb goals sub c = some (sols, sub', c') → sub' = sub)
    ∧ (∀ kb cls g rest sub c sols sub' c',
        resolveClauses fuel kb cls g rest sub c = some (sols, sub', c') → sub' = sub) := by
  intro fuel
  induction fuel with
  | zero =>
    constructor
    · intro kb goals sub c sols sub' c' h
      simp [resolve] at h
    · intro kb cls g rest sub c sols sub' c' h
      simp [resolveClauses] at h
  | succ f ih =>
    constructor
    · intro kb goals sub c sols sub' c' h
      match goals with
      | [] =>
        simp only [resolve] at h
        split at h
        · exact Option.noConfusion h
        · injection h with h1; injection h1 with h2 h3; injection h3 with h4 h5
          exact h4.symm
      | g :: rest =>
        simp only [resolve] at h
        exact ih.2 _ _ _ _ _ _ _ _ _ h
    · intro kb cls g rest sub c sols sub' c' h
      match cls with
      | [] =>
        simp only [resolveClauses] at h
        injection h with h1; injection h1 with h2 h3; injection h3 with h4 h5
        exact h4.symm
      | cl :: cls' =>
        simp only [resolveClauses] at h
        split at h
        · exact Option.noConfusion h
        · rename_i ok sub1 hunify
          obtain ⟨e, rfl⟩ := (unifyAppendsAux f).1 _ _ _ _ _ hunify
          split at h
          · split at h
            · exact Option.noConfusion h
            · rename_i nextGoals hmap
              split at h
              · exact Option.noConfusion h
              · rename_i sols1 sub2 c2 hres
                split at h
                · exact Option.noConfusion h
                · rename_i sols2 sub3 c3 hrec
                  injection h with h1; injection h1 with h2 h3; injection h3 with h4 h5
                  have hs2 := ih.1 _ _ _ _ _ _ _ hres
                  have hs3 := ih.2 _ _ _ _ _ _ _ _ _ hrec
                  rw [← h4, hs3, hs2, restore_substitution, mark_substitution, List.take_left]
          · have hs := ih.2 _ _ _ _ _ _ _ _ _ h
            rw [hs, restore_substitution, mark_substitution, List.take_left]

/-- Every term the argument loop of `parse_term` returns is a compound
with the functor it was given. -/
theorem parseArgsShape : ∀ (fuel : Nat) (name : String) (acc : List Term) (l : List Char)
    (t : Term) (r : List Char),
    parseArgs fuel name acc l = some (t, r) → ∃ args, t = Term.compound name args := by
  intro fuel
  induction fuel with
  | zero => intro name acc l t r h; simp [parseArgs] at h
  | succ f ih =>
    intro name acc l t r h
    simp only [parseArgs] at h
    split at h
    · exact Option.noConfusion h
    · rename_i a r1 hterm
      split at h
      · injection h with h1; injection h1 with h2 h3
        exact ⟨_, h2.symm⟩
      · exact ih _ _ _ _ _ h
      · exact Option.noConfusion h

/-! ## The claims -/

/-- C1.  The claim says that on the knowledge base `parent(john,jim).`,
`parent(john,jane).`, `parent(mary,john).` plus
`grandparent(X,Y) :- parent(X,Z), parent(Z,Y).`, the query
`grandparent(mary, X).` in all-solutions mode yields exactly `X = jim`
then `X = jane`.  The code does not: because `rename_variables` gives
each variable occurrence its own fresh name, the renamed rule's head
and body no longer share variables, and `resolve` emits nine solutions,
each binding `X` to the unbound renamed variable `_G1`. -/
theorem c1_grandparent_query_misbinds :
    resolve_query 17 kbDemo queryGrandparentMaryX
      = some (List.replicate 9 [("X", Term.var "_G1")]) := by rfl

/-- C2.  The claim says fresh instantiation replaces the two
occurrences of one variable name inside a clause by the same fresh
name.  `rename_variables` (term.c), the renaming `resolve` uses,
increments the counter at every occurrence: renaming `f(X, X)` from
counter 0 yields `f(_G0, _G1)` — two different fresh names for the two
occurrences of `X`. -/
theorem c2_rename_splits_shared_variable :
    rename_variables (Term.compound "f" [Term.var "X", Term.var "X"]) 0
      = (Term.compound "f" [Term.var "_G0", Term.var "_G1"], 2)
    ∧ ("_G0" : String) ≠ "_G1" :=
  ⟨by rfl, by decide⟩

/-- C3, counterexample.  The claim says `unify(V, T, env)` fails
whenever `V` occurs in `T` *after dereferencing through env*.  With
`env = [Y ↦ X]`, the variable `X` occurs after dereferencing inside
`g(Y)` (first conjunct), yet `unify(X, g(Y), env)` returns true and
binds `X` (second conjunct), because `occurs_check` never
dereferences. -/
theorem c3_deref_occurs_counterexample :
    dereference [("Y", Term.var "X")] 1 (Term.var "Y") = some (Term.var "X")
    ∧ unify 2 (Term.var "X") (Term.compound "g" [Term.var "Y"]) [("Y", Term.var "X")]
        = some (true, [("Y", Term.var "X"), ("X", Term.compound "g" [Term.var "Y"])]) :=
  ⟨by rfl, by rfl⟩

/-- C3, amended.  `unify` performs a *syntactic* occurs check: if the
left term dereferences to a variable `v'`, the right term dereferences
to a term `t'` other than `Variable v'` itself, and `v'` occurs
syntactically in `t'`, then `unify` returns false and leaves the
substitution unbound and unchanged; in particular
`unify(Variable "X", Compound "f" [Variable "X"], env)` fails. -/
theorem c3_syntactic_occurs_check (fuel : Nat) (sub : Sub) (v v' : String) (t t' : Term)
    (h1 : dereference sub fuel (Term.var v) = some (Term.var v'))
    (h2 : dereference sub fuel t = some t')
    (h3 : occurs_check v' t' = true)
    (h4 : t' ≠ Term.var v') :
    unify (fuel + 1) (Term.var v) t sub = some (false, sub) := by
  simp only [unify, h1, h2]
  have hb : ∀ u : Term, u ≠ Term.var v' →
      (match u with | Term.var n2 => decide (v' = n2) | _ => false) = false := by
    intro u hu
    cases u with
    | var n2 =>
      by_cases hv : v' = n2
      · subst hv; exact absurd rfl hu
      · simp [hv]
    | atom n => rfl
    | compound n a => rfl
  rw [hb t' h4]
  simp [h3]

/-- C3, witness: the amended theorem applied to the spec's own concrete
instance `unify(Variable "X", Compound "f" [Variable "X"], [])`. -/
theorem c3_occurs_witness :
    unify 1 (Term.var "X") (Term.compound "f" [Term.var "X"]) [] = some (false, []) :=
  c3_syntactic_occurs_check 0 [] "X" "X"
    (Term.compound "f" [Term.var "X"]) (Term.compound "f" [Term.var "X"])
    rfl rfl rfl (by simp)

/-- C4.  Backtracking restores the substitution exactly: `resolve`
marks before each clause attempt and restores after it whether or not
unification succeeded, so whenever `resolve` (or any run of its clause
loop) returns, the substitution it hands back is the very one it
received — in particular its entry count is unchanged and no binding
leaks. -/
theorem c4_resolve_restores_substitution :
    (∀ fuel kb goals sub c sols sub' c',
        resolve fuel kb goals sub c = some (sols, sub', c') → sub' = sub)
    ∧ (∀ fuel kb cls g rest sub c sols sub' c',
        resolveClauses fuel kb cls g rest sub c = some (sols, sub', c') → sub' = sub) :=
  ⟨fun fuel => (resolveRestoresAux fuel).1, fun fuel => (resolveRestoresAux fuel).2⟩

/-- C4, witness: a complete `resolve` run over one fact returns the
empty substitution it started from. -/
theorem c4_restore_witness :
    resolve 6 [factParentJohnJim] [queryParentJohnX] [] 0
      = some ([[("X", Term.atom "jim")]], [], 0)
    ∧ ([] : Sub) = [] :=
  ⟨by rfl,
   c4_resolve_restores_substitution.1 6 [factParentJohnJim] [queryParentJohnX] [] 0
     [[("X", Term.atom "jim")]] [] 0 (by rfl)⟩

/-- C5.  On the knowledge base holding exactly `parent(john, jim).`,
`parent(john, jane).`, `parent(mary, john).` in that insertion order,
the query `parent(john, X).` in all-solutions mode yields exactly
`X = jim` and then `X = jane`, in that order. -/
theorem c5_parent_query_solutions :
    resolve_query 7 kbFacts queryParentJohnX
      = some [[("X", Term.atom "jim")], [("X", Term.atom "jane")]] := by rfl

/-- C6.  The claim says `unify(A, B, env)` succeeds iff
`unify(B, A, env)` succeeds on an empty environment.  Because
`occurs_check` does not dereference, the code is asymmetric:
for `A = f(X, X)` and `B = f(Y, g(Y))`, `unify(A, B, [])` returns false
(the occurs check fires on the dereferenced `Y` against `g(Y)`) while
`unify(B, A, [])` returns true (binding `Y ↦ X`, then `X ↦ g(Y)`
without noticing the cycle). -/
theorem c6_unify_asymmetric_eval :
    unify 5 (Term.compound "f" [Term.var "X", Term.var "X"])
        (Term.compound "f" [Term.var "Y", Term.compound "g" [Term.var "Y"]]) []
      = some (false, [("X", Term.var "Y")])
    ∧ unify 5 (Term.compound "f" [Term.var "Y", Term.compound "g" [Term.var "Y"]])
        (Term.compound "f" [Term.var "X", Term.var "X"]) []
      = some (true, [("Y", Term.var "X"), ("X", Term.compound "g" [Term.var "Y"])]) :=
  ⟨by rfl, by rfl⟩

/-- C7, counterexample.  The claim says a name beginning with an
underscore and not followed by `(` parses as a Variable.  The parser's
`is_uppercase` accepts only `'A'..'Z'`, so `_X` parses as an Atom. -/
theorem c7_underscore_atom_counterexample :
    parse_term 2 (String.toList "_X") = some (Term.atom "_X", [])
    ∧ ∀ name, Term.atom "_X" ≠ Term.var name :=
  ⟨by rfl, fun name h => Term.noConfusion h⟩

/-- C7, amended.  For every input on which a name parses: if the name
is followed (after whitespace) by `'('`, any successful `parse_term`
yields a Compound with that name as functor, regardless of its first
character; if it is not followed by `'('`, `parse_term` succeeds and
yields a Variable when the first character is an uppercase letter
(`'A'..'Z'`), and an Atom otherwise — including names beginning with an
underscore. -/
theorem c7_name_classification (fuel : Nat) (l n r : List Char)
    (hname : parse_name (skip_whitespace l) = some (n, r)) :
    ((∃ r2, skip_whitespace r = '(' :: r2) →
        ∀ t rest, parse_term (fuel + 1) l = some (t, rest) →
          ∃ args, t = Term.compound (String.mk n) args)
    ∧ ((¬ ∃ r2, skip_whitespace r = '(' :: r2) →
        is_uppercase (n.headD ' ') = true →
        parse_term (fuel + 1) l = some (Term.var (String.mk n), skip_whitespace r))
    ∧ ((¬ ∃ r2, skip_whitespace r = '(' :: r2) →
        is_uppercase (n.headD ' ') = false →
        parse_term (fuel + 1) l = some (Term.atom (String.mk n), skip_whitespace r)) := by
  refine ⟨?_, ?_, ?_⟩
  · rintro ⟨r2, hr⟩ t rest h
    simp only [parse_term, hname, hr] at h
    split at h
    · injection h with h1; injection h1 with h2 h3
      exact ⟨[], h2.symm⟩
    · exact parseArgsShape _ _ _ _ _ _ h
  · intro hno hup
    simp only [parse_term, hname]
    cases hws : skip_whitespace r with
    | nil =>
      split
      all_goals first
        | (rename_i r2 heq; exact List.noConfusion heq)
        | (rw [hup]; simp)
    | cons c cs =>
      by_cases hc : c = '('
      · subst hc; exact absurd ⟨cs, hws⟩ hno
      · split
        all_goals first
          | (rename_i r2 heq; injection heq with hceq hrest; exact absurd hceq hc)
          | (rw [hup]; simp)
  · intro hno hup
    simp only [parse_term, hname]
    cases hws : skip_whitespace r with
    | nil =>
      split
      all_goals first
        | (rename_i r2 heq; exact List.noConfusion heq)
        | (rw [hup]; simp)
    | cons c cs =>
      by_cases hc : c = '('
      · subst hc; exact absurd ⟨cs, hws⟩ hno
      · split
        all_goals first
          | (rename_i r2 heq; injection heq with hceq hrest; exact absurd hceq hc)
          | (rw [hup]; simp)

/-- C7, witness: the amended theorem applied to the input `Xy`, whose
name is uppercase-leading and not followed by `(`, so it parses as the
Variable `Xy`. -/
theorem c7_classification_witness :
    parse_term 1 (String.toList "Xy") = some (Term.var "Xy", []) :=
  (c7_name_classification 0 (String.toList "Xy") ['X', 'y'] [] rfl).2.1
    (by simp [skip_whitespace]) rfl

/-- C8.  Clause parsing is whole-clause-atomic: whenever `parse_clause`
fails, `load_clause` leaves the knowledge base unchanged and reports
failure; on the spec's concrete malformed text `parent(john, jim`
(missing `)` and `.`) the load fails with the knowledge base untouched,
and a subsequent valid load of `parent(john, jim).` still succeeds and
appends exactly that clause. -/
theorem c8_parse_failure_leaves_kb_unchanged :
    (∀ fuel (kb : KB) text, parse_clause fuel text = none → load_clause fuel kb text = (kb, false))
    ∧ (∀ kb : KB,
        load_clause 8 kb (String.toList "parent(john, jim") = (kb, false)
        ∧ load_clause 8 kb (String.toList "parent(john, jim).")
            = (kb ++ [factParentJohnJim], true)) := by
  constructor
  · intro fuel kb text h
    simp [load_clause, h]
  · intro kb
    exact ⟨by rfl, by rfl⟩

/-- C8, witness: the atomicity clause of the theorem applied to the
concrete failing input `(` and an empty knowledge base. -/
theorem c8_atomic_witness :
    load_clause 2 [] (String.toList "(") = ([], false) :=
  c8_parse_failure_leaves_kb_unchanged.1 2 [] (String.toList "(") (by rfl)

/-- C9.  Querying is idempotent and deterministic: `resolve_query`
starts every query from a fresh empty substitution and a variable
counter reset to 0 and never touches the knowledge base, so running the
same query twice in a session against the unmodified knowledge base
yields the same solution sequence both times. -/
theorem c9_requery_identical :
    ∀ (fuel : Nat) (kb : KB) (q : Term) (qs : List Term),
      ∃ res, run_session fuel kb (q :: q :: qs) = res :: res :: run_session fuel kb qs :=
  fun fuel kb q _ => ⟨resolve_query fuel kb q, rfl⟩

/-- C10.  `unify` never alters history: whether it returns true or
false, every entry that was in the substitution before the call is
still there, unchanged and at its original position, and the result is
the original substitution plus an appended suffix — it never
overwrites, reorders or removes entries. -/
theorem c10_unify_only_appends :
    ∀ fuel t1 t2 sub b sub',
      unify fuel t1 t2 sub = some (b, sub') → ∃ e, sub' = sub ++ e :=
  fun fuel => (unifyAppendsAux fuel).1

/-- C10, witness: the theorem applied to the concrete call
`unify(Variable "X", Atom "a", [])`, which appends one binding. -/
theorem c10_append_witness :
    unify 1 (Term.var "X") (Term.atom "a") [] = some (true, [("X", Term.atom "a")])
    ∧ ∃ e, [("X", Term.atom "a")] = ([] : Sub) ++ e :=
  ⟨by rfl,
   c10_unify_only_appends 1 (Term.var "X") (Term.atom "a") [] true
     [("X", Term.atom "a")] (by rfl)⟩

end PrologC
